import Mathlib

/-!
Verification development for the s4 medialib backend.

This file gives a shallow embedding of the core data structures and
algorithms of the C sources (`src/index.c`, `src/sourcepref.c`,
`src/lib/log.c`, `src/lib/fetchspec.c`) and proves or refutes the
specified properties about them.

Modelling conventions:
* C machine integers are modelled as `Int`/`Nat`; byte positions and the
  monotonic log counter as `Nat` (they start at 0 and only grow).
* Heap pointers are modelled by the inductive type `Addr`: a relation
  record pointer is `Addr.rel n`, and the (malloc'd) occurrence array of
  an index bucket is `Addr.occArray n`.  Distinct live allocations have
  distinct addresses, which the constructors enforce.
* `strcmp` is modelled as a three-valued sign; Lean's `String` order is
  lexicographic on code points, which coincides with byte-wise order of
  the UTF-8 encoding.
* fallible reads are modelled with `Option`; out-of-bounds list reads use
  `List.getD` with an explicit default where the C code would read
  uninitialized memory (the default is chosen unequal to any valid
  relation pointer, matching the realistic behaviour of fresh malloc'd
  memory).
-/

/-- A tagged scalar value: 32-bit signed integer or string
(`s4_val_t`; `_val_comp` in `index.c` only distinguishes the two tags). -/
inductive SVal where
  | i (n : Int)
  | s (str : String)
deriving DecidableEq

/-- Heap addresses.  `rel n` is a pointer to a relation record handed to the
index by its caller; `occArray n` is the address of the `index_data_t` array
malloc'd inside a bucket.  The allocator never aliases the two. -/
inductive Addr where
  | rel (n : Nat)
  | occArray (n : Nat)
deriving DecidableEq

/-- Pointer comparison `a < b` as used by `_data_search`.  In the program
only relation pointers are ever compared with each other; the order between
unrelated allocations is unspecified in C, any fixed choice is sound here. -/
def addrLt : Addr → Addr → Bool
  | .rel a, .rel b => a < b
  | .occArray a, .occArray b => a < b
  | .occArray _, .rel _ => true
  | .rel _, .occArray _ => false

/-- `_val_comp` from `index.c`: ints before strings, ints numerically,
strings byte-wise (`strcmp` modelled by its sign). -/
def valComp : SVal → SVal → Int
  | .i i1, .i i2 => if i1 > i2 then 1 else if i1 < i2 then -1 else 0
  | .s s1, .s s2 => if s1 < s2 then -1 else if s2 < s1 then 1 else 0
  | .i _, .s _ => -1
  | .s _, .i _ => 1

/-- One entry of a bucket's occurrence list (`index_data_t`):
a relation pointer and its reference count. -/
structure IdxData where
  data : Addr
  count : Int
deriving DecidableEq

/-- One bucket of an index (`index_t`): a value, the occurrence list, and
the address of the malloc'd occurrence array (`index->data[i].data` seen as
a pointer value, compared against `new_data` by `_index_delete`). -/
structure IdxBucket where
  val : SVal
  occ : List IdxData
  arrAddr : Nat
deriving DecidableEq

/-- An index (`s4_index_t`): the bucket array, sorted by value. -/
abbrev Index := List IdxBucket

/-- Loop body of `_bsearch` from `index.c`, fuel-indexed: the C `while` loop
runs at most `hi - lo` times, so any `fuel ≥ hi - lo` yields the loop's
result.  `f` is `func` with `funcdata` applied (`f v = func (v, funcdata)`). -/
def bsearchGo (vs : List SVal) (f : SVal → Int) : Nat → Nat → Nat → Nat
  | 0, lo, _ => lo
  | fuel + 1, lo, hi =>
    if lo < hi then
      let m := (hi + lo) / 2
      let c := f (vs.getD m (.i 0))
      if c = 0 then m
      else if c < 0 then bsearchGo vs f fuel (m + 1) hi
      else bsearchGo vs f fuel lo m
    else lo

/-- `_bsearch (index, func, funcdata)` over the bucket values. -/
def bsearchF (vs : List SVal) (f : SVal → Int) : Nat :=
  bsearchGo vs f vs.length 0 vs.length

/-- Loop body of `_data_search` from `index.c` (binary search of an
occurrence list by pointer value, kept in descending address order). -/
def dataSearchGo (ds : List Addr) (d : Addr) : Nat → Nat → Nat → Nat
  | 0, lo, _ => lo
  | fuel + 1, lo, hi =>
    if lo < hi then
      let m := (hi + lo) / 2
      let e := ds.getD m (.occArray 0)
      if d = e then m
      else if addrLt d e then dataSearchGo ds d fuel (m + 1) hi
      else dataSearchGo ds d fuel lo m
    else lo

/-- `_data_search (index, data)`. -/
def dataSearch (ds : List Addr) (d : Addr) : Nat :=
  dataSearchGo ds d ds.length 0 ds.length

/-- `_index_insert (index, val, new_data)` from `index.c`.  Notable detail
kept from the source: the occurrence-list membership test is
`j >= index->size || new_data != index->data[i].data[j].data`, where
`index->size` is the number of *buckets*, not the size of the occurrence
list.  When `j` is within the occurrence list the read is exact; when `j`
is past its end the C code reads uninitialized memory, modelled here as a
value unequal to any relation pointer. -/
def indexInsert (idx : Index) (v : SVal) (d : Addr) : Index :=
  let i := bsearchF (idx.map (·.val)) (fun bv => valComp bv v)
  let idx1 :=
    if i ≥ idx.length ∨ valComp v ((idx.getD i ⟨.i 0, [], 0⟩).val) ≠ 0 then
      idx.insertIdx i ⟨v, [], idx.length⟩
    else idx
  let b := idx1.getD i ⟨.i 0, [], 0⟩
  let j := dataSearch (b.occ.map (·.data)) d
  let occHit : Bool := match b.occ[j]? with
    | some o => o.data == d
    | none => false
  let b' :=
    if j ≥ idx1.length ∨ ¬ occHit then
      { b with occ := b.occ.insertIdx j ⟨d, 1⟩ }
    else
      { b with occ := b.occ.set j ⟨d, (b.occ.getD j ⟨d, 0⟩).count + 1⟩ }
  idx1.set i b'

/-- `_index_delete (index, val, new_data)` from `index.c`, kept faithful to
the source including its two defects: the occurrence guard is
`j >= index->size || new_data != index->data[i].data` — it compares the
relation pointer with the address of the occurrence *array* — and the
bucket-removal `memmove` copies from `index->data + i + i` instead of
`i + 1` (modelled by `take i ++ drop (i + i)`; where the C source range
runs past the array the extra reads are dropped). -/
def indexDelete (idx : Index) (v : SVal) (d : Addr) : Index × Int :=
  let i := bsearchF (idx.map (·.val)) (fun bv => valComp bv v)
  match idx[i]? with
  | none => (idx, 0)
  | some b =>
    if valComp v b.val ≠ 0 then (idx, 0)
    else
      let j := dataSearch (b.occ.map (·.data)) d
      if j ≥ idx.length ∨ d ≠ Addr.occArray b.arrAddr then (idx, 0)
      else
        let o := b.occ.getD j ⟨d, 0⟩
        let occ1 :=
          if o.count - 1 ≤ 0 then (b.occ.set j { o with count := o.count - 1 }).eraseIdx j
          else b.occ.set j { o with count := o.count - 1 }
        let idx1 := idx.set i { b with occ := occ1 }
        if occ1.length ≤ 0 then
          ((idx1.take i ++ idx1.drop (i + i)).take (idx1.length - 1), 1)
        else (idx1, 1)

/-- Occurrence data of one bucket as a set. -/
def occSet (b : IdxBucket) : Finset Addr := (b.occ.map (·.data)).toFinset

/-- The left scan of `_index_search`:
`for (i = i; i >= 0 && !func (...); i--); i++;`. -/
def scanLeft (vs : List SVal) (f : SVal → Int) : Nat → Nat
  | 0 => if f (vs.getD 0 (.i 0)) ≠ 0 then 1 else 0
  | m + 1 => if f (vs.getD (m + 1) (.i 0)) ≠ 0 then m + 2 else scanLeft vs f m

/-- The right scan of `_index_search`, collecting each matching bucket's
relation pointers into the hash set `found` (modelled as a `Finset`). -/
def collectRight (idx : Index) (f : SVal → Int) : Nat → Nat → Finset Addr
  | 0, _ => ∅
  | fuel + 1, i =>
    if i < idx.length ∧ f ((idx.getD i ⟨.i 0, [], 0⟩).val) = 0 then
      occSet (idx.getD i ⟨.i 0, [], 0⟩) ∪ collectRight idx f fuel (i + 1)
    else ∅

/-- `_index_search (index, func, func_data)` from `index.c`.  The returned
`GList` is the key set of the `found` hash table in unspecified iteration
order; it is modelled as that set. -/
def indexSearch (idx : Index) (f : SVal → Int) : Finset Addr :=
  let vs := idx.map (·.val)
  let i := bsearchF vs f
  if i ≥ idx.length ∨ f (vs.getD i (.i 0)) ≠ 0 then ∅
  else collectRight idx f idx.length (scanLeft vs f i)

/-- Strict sortedness of the bucket array under the canonical comparator
(the index invariant from the specification). -/
def IdxSorted (idx : Index) : Prop :=
  (idx.map (·.val)).Pairwise (fun a b => valComp a b < 0)

instance (idx : Index) : Decidable (IdxSorted idx) := by
  unfold IdxSorted; infer_instance

/-- One mutation of an index as performed by the relation store: insert or
delete of a relation pointer. -/
inductive IdxOp where
  | ins (v : SVal) (n : Nat)
  | del (v : SVal) (n : Nat)

/-- Apply one index operation. -/
def applyOp (idx : Index) : IdxOp → Index
  | .ins v n => indexInsert idx v (.rel n)
  | .del v n => (indexDelete idx v (.rel n)).1

/-- Apply a sequence of index operations in order. -/
def applyOps (idx : Index) (ops : List IdxOp) : Index :=
  ops.foldl applyOp idx

/-! ### Monotone predicates over the canonical order -/

/-- Sign-monotonicity of a predicate along the positions of a value list:
what the binary search and the outward scans of `_index_search` need. -/
def SignMono (f : SVal → Int) (vs : List SVal) : Prop :=
  ∀ i j, i < j → j < vs.length →
    (f (vs.getD j (.i 0)) < 0 → f (vs.getD i (.i 0)) < 0) ∧
    (0 < f (vs.getD i (.i 0)) → 0 < f (vs.getD j (.i 0)))

/-- A predicate monotone along the canonical value order (the spec's
"monotone comparator": negative strictly before, positive strictly after
its zero set). -/
def PredMono (f : SVal → Int) : Prop :=
  ∀ a b, valComp a b < 0 → (f b < 0 → f a < 0) ∧ (0 < f a → 0 < f b)

/-! ### Write-ahead log (`src/lib/log.c`) -/

/-- `LOG_SIZE` from `log.c`: 2 MiB. -/
def LOG_SIZE : Nat := 2 * 1024 * 1024

/-- `sizeof (struct log_header)` = `{log_type_t type; log_number_t num}` on
an LP64 platform: 4-byte enum, 4 bytes padding, 8-byte counter. -/
def logHeaderSize : Nat := 16

/-- `sizeof (struct mod_header)`: five `int32_t` fields. -/
def modHeaderSize : Nat := 20

/-- Modelled from the spec: `log_number_t` is declared in `s4_priv.h`
(not part of the provided sources); the specification fixes the log
counter at 64 bits ("a 64-bit monotonic counter", record header
`{u32 type, u64 counter}`), so `sizeof (log_number_t)` = 8. -/
def logNumberSize : Nat := 8

/-- `sizeof (int32_t)`. -/
def int32Size : Nat := 4

/-- The record types of `log_type_t`. -/
inductive LogType where
  | add
  | del
  | wrap
  | init
  | lbegin
  | lend
  | writing
  | checkpoint
deriving DecidableEq

/-- One ADD/DEL payload: the five components of a relation
(`_log_mod` writes them after a `mod_header`). -/
structure ModOp where
  isAdd : Bool
  keyA : String
  valA : SVal
  keyB : String
  valB : SVal
  src : String
deriving DecidableEq

/-- `_get_val_len`: string length for strings, `-1` for integers. -/
def getValLen : SVal → Int
  | .s str => (str.utf8ByteSize : Int)
  | .i _ => -1

/-- Actual byte size of a value as written by `_write_val`:
4 bytes for an integer, the byte length for a string. -/
def valSize : SVal → Nat
  | .s str => str.utf8ByteSize
  | .i _ => int32Size

/-- `_get_size`: bytes of the mod header plus payload of an ADD/DEL record
(exactly what `_log_mod` writes after the log header). -/
def getSize (m : ModOp) : Nat :=
  modHeaderSize + m.keyA.utf8ByteSize + m.keyB.utf8ByteSize + m.src.utf8ByteSize
    + valSize m.valA + valSize m.valB

/-- One oplist entry as iterated by `_log_write`/`_estimate_size`:
an ADD/DEL mutation or the WRITING marker inserted by the sync thread. -/
inductive OpItem where
  | mod (m : ModOp)
  | writing
deriving DecidableEq

/-- The loop body of `_estimate_size`: returns the accumulated estimate,
the largest single estimate, and the `*writing` flag.  Faithful to the
source, which counts `strlen (key_a)` twice and never `key_b`, and adds
`_get_val_len` (which is `-1` for integers) instead of the written size. -/
def estimateGo : List OpItem → Int × Int × Bool
  | [] => (0, 0, false)
  | op :: rest =>
    let (ret, largest, writing) := estimateGo rest
    match op with
    | .mod m =>
      let size : Int := (logHeaderSize : Int) + (modHeaderSize : Int)
        + (m.keyA.utf8ByteSize : Int) + (m.keyA.utf8ByteSize : Int)
        + (m.src.utf8ByteSize : Int)
        + getValLen m.valA + getValLen m.valB
      (ret + size, max size largest, writing)
    | .writing =>
      let size : Int := (logHeaderSize : Int)
      (ret + size, max size largest, true)

/-- `_estimate_size (list, &writing)`: total estimate (0 for an empty list,
otherwise the accumulated size plus three headers and the largest entry for
BEGIN, END and a possible wrap-around) and the `writing` flag. -/
def estimateSize (ops : List OpItem) : Int × Bool :=
  let (ret, largest, writing) := estimateGo ops
  if ret = 0 then (0, writing)
  else (ret + 3 * (logHeaderSize : Int) + largest, writing)

/-- One record as laid down in the log file by the writer:
the byte offset `fwrite` wrote the header at, the counter stored in the
header, and the type. -/
structure WRec where
  offset : Nat
  num : Nat
  type : LogType
deriving DecidableEq

/-- Writer-side log state (`s4_log_data_t` plus the file):
`filePos` is the stdio position (`ftell`), `recs` the records written. -/
structure WSt where
  filePos : Nat
  nextLogpoint : Nat
  lastLogpoint : Nat
  lastCheckpoint : Nat
  lastSynced : Nat
  recs : List WRec
deriving DecidableEq

/-- `_log_write_header (s4, hdr, size)`: computes `pos`/`round` from
`next_logpoint`, emits a WRAP record and rewinds when the entry would not
fit below `LOG_SIZE - 2 * sizeof (struct log_header)`, then writes the
header (at the current file position) with counter `pos + round * LOG_SIZE`
and advances `last_logpoint`/`next_logpoint`. -/
def logWriteHeader (st : WSt) (t : LogType) (size : Nat) : WSt :=
  let pos := st.nextLogpoint % LOG_SIZE
  let round := st.nextLogpoint / LOG_SIZE
  let st1 :=
    if pos + size > LOG_SIZE - logHeaderSize * 2 then
      { st with
        recs := st.recs ++ [⟨st.filePos, pos + round * LOG_SIZE, .wrap⟩],
        filePos := 0 }
    else st
  let pos1 := if pos + size > LOG_SIZE - logHeaderSize * 2 then 0 else pos
  let round1 := if pos + size > LOG_SIZE - logHeaderSize * 2 then round + 1 else round
  { st1 with
    recs := st1.recs ++ [⟨st1.filePos, pos1 + round1 * LOG_SIZE, t⟩],
    filePos := st1.filePos + logHeaderSize,
    lastLogpoint := st.nextLogpoint,
    nextLogpoint := st1.filePos + logHeaderSize + round1 * LOG_SIZE + size }

/-- `_log_mod`: header plus `mod_header`, strings and values
(`getSize m` bytes of payload follow the header). -/
def logMod (st : WSt) (m : ModOp) : WSt :=
  let st1 := logWriteHeader st (if m.isAdd then .add else .del) (getSize m)
  { st1 with filePos := st1.filePos + getSize m }

/-- `_log_simple`: a bare header. -/
def logSimple (st : WSt) (t : LogType) : WSt :=
  logWriteHeader st t 0

/-- `_log_checkpoint`: BEGIN, then a CHECKPOINT header declared with
payload size `sizeof (int32_t)` = 4 followed by an `fwrite` of
`last_synced` of `sizeof (log_number_t)` = 8 bytes, then END. -/
def logCheckpoint (st : WSt) : WSt :=
  let st1 := logSimple st .lbegin
  let st2 := logWriteHeader st1 .checkpoint int32Size
  let st3 := { st2 with filePos := st2.filePos + logNumberSize }
  let st4 := { st3 with lastCheckpoint := st3.lastSynced }
  logSimple st4 .lend

/-- The oplist loop of `_log_write`. -/
def logWriteOps (st : WSt) : List OpItem → WSt
  | [] => st
  | .mod m :: rest => logWriteOps (logMod st m) rest
  | .writing :: rest => logWriteOps (logSimple st .writing) rest

/-- `_log_write (list)`: estimate, back-pressure check against
`last_checkpoint + LOG_SIZE`, then BEGIN, the ops, END.  Returns the new
state and the C return value (note the source returns `writing`, not 0,
when the write is refused).  `_start_sync` and `_log_flush` only signal
the sync thread and flush file buffers. -/
def logWrite (st : WSt) (ops : List OpItem) : WSt × Int :=
  let (size, writing) := estimateSize ops
  if size = 0 then (st, 1)
  else
    let st1 := if writing then { st with lastSynced := st.lastLogpoint } else st
    if (st1.nextLogpoint : Int) + size > (st1.lastCheckpoint : Int) + (LOG_SIZE : Int) then
      (st1, if writing then 1 else 0)
    else
      let st2 := logSimple st1 .lbegin
      let st3 := logWriteOps st2 ops
      let st4 := logSimple st3 .lend
      (st4, 1)

/-! ### Log recovery (`_log_redo`) -/

/-- One record as encountered by the recovery scan, with the counter stored
in its header.  For ADD/DEL, `ok` models whether the payload reads back
successfully in `_read_mod` (`_read_str`/`_read_val` return non-NULL:
lengths in range and no short read). -/
inductive RawRec where
  | wrap (num : Nat)
  | mod (m : ModOp) (ok : Bool) (num : Nat)
  | chkpt (payload : Int) (num : Nat)
  | writing (num : Nat)
  | rbegin (num : Nat)
  | rend (num : Nat)
  | rinit (num : Nat)
  | unknown (num : Nat)
deriving DecidableEq

/-- The counter in a record's header. -/
def RawRec.num : RawRec → Nat
  | .wrap n => n
  | .mod _ _ n => n
  | .chkpt _ n => n
  | .writing n => n
  | .rbegin n => n
  | .rend n => n
  | .rinit n => n
  | .unknown n => n

/-- Recovery-side state: the file position and rotation, the log-point
bookkeeping of `_log_redo`, the oplist being buffered between BEGIN/END
(`_oplist_new`/`_oplist_insert_add`/`_oplist_insert_del`), and `applied`,
the operations executed against the store by `_oplist_execute` at each
END, in order. -/
structure RSt where
  pos : Nat
  round : Nat
  nextLogpoint : Nat
  lastLogpoint : Nat
  lastValid : Nat
  lastCheckpoint : Int
  lastSynced : Int
  newCheckpoint : Int
  newSynced : Int
  oplist : Option (List ModOp)
  applied : List ModOp
deriving DecidableEq

/-- Advance the file position after a record: `pos = ftell (...)`,
`next_logpoint = pos + round * LOG_SIZE` (lines at the end of the redo
loop body). -/
def stepTo (st : RSt) (p : Nat) : RSt :=
  { st with pos := p, nextLogpoint := p + st.round * LOG_SIZE }

/-- The scan loop of `_log_redo`.  The loop stops when `fread` fails (end
of the record list), when the header counter differs from
`pos + round * LOG_SIZE`, or after an iteration that set `invalid_entry`
(unknown type, or `_read_mod` failure — including ADD/DEL with no BEGIN
open, where `_read_mod` returns 0 because the oplist is NULL). -/
def redoLoop : RSt → List RawRec → RSt
  | st, [] => st
  | st, r :: rest =>
    if r.num ≠ st.pos + st.round * LOG_SIZE then st
    else
      let st1 := { st with lastLogpoint := st.nextLogpoint }
      match r with
      | .wrap _ =>
        redoLoop (stepTo { st1 with round := st1.round + 1 } 0) rest
      | .mod m ok _ =>
        match st1.oplist, ok with
        | some ops, true =>
          redoLoop (stepTo { st1 with oplist := some (ops ++ [m]) }
            (st1.pos + logHeaderSize + getSize m)) rest
        | _, _ => st1
      | .chkpt p _ =>
        redoLoop (stepTo { st1 with newCheckpoint := p }
          (st1.pos + logHeaderSize + logNumberSize)) rest
      | .writing _ =>
        redoLoop (stepTo { st1 with newSynced := (st1.nextLogpoint : Int) }
          (st1.pos + logHeaderSize)) rest
      | .rbegin _ =>
        redoLoop
          (stepTo
            { st1 with
              oplist := some []
              newCheckpoint := -1
              newSynced := -1 }
            (st1.pos + logHeaderSize)) rest
      | .rend _ =>
        match st1.oplist with
        | none => redoLoop (stepTo st1 (st1.pos + logHeaderSize)) rest
        | some ops =>
          let st2 := { st1 with applied := st1.applied ++ ops, oplist := none }
          let st3 :=
            if st2.newCheckpoint ≠ -1 then
              { st2 with
                lastSynced := st2.newCheckpoint
                lastCheckpoint := st2.newCheckpoint }
            else if st2.newSynced ≠ -1 then
              { st2 with lastSynced := st2.newSynced }
            else st2
          redoLoop (stepTo { st3 with lastValid := st3.lastLogpoint }
            (st3.pos + logHeaderSize)) rest
      | .rinit _ =>
        redoLoop (stepTo st1 (st1.pos + logHeaderSize)) rest
      | .unknown _ => st1

/-- `_log_redo` from the top of the scan loop on: the preamble (seek to
`last_logpoint`, possible `_reread_file`) is file-handling setup; the scan
starts just after the record at `last_logpoint` with
`next_logpoint = last_logpoint + sizeof (struct log_header)`, and the
epilogue resets `last_logpoint`/`next_logpoint` to the last valid
transaction end.  `cp0`/`sy0` are the incoming checkpoint/sync counters. -/
def redoRun (lp0 : Nat) (cp0 sy0 : Int) (file : List RawRec) : RSt :=
  let next0 := lp0 + logHeaderSize
  let st0 : RSt :=
    { pos := next0 % LOG_SIZE
      round := next0 / LOG_SIZE
      nextLogpoint := next0
      lastLogpoint := lp0
      lastValid := lp0
      lastCheckpoint := cp0
      lastSynced := sy0
      newCheckpoint := -1
      newSynced := -1
      oplist := none
      applied := [] }
  let st := redoLoop st0 file
  { st with
    oplist := none
    lastLogpoint := st.lastValid
    nextLogpoint := st.lastValid + logHeaderSize
    pos := (st.lastValid + logHeaderSize) % LOG_SIZE }

/-- Spec-side scan (amended stopping rule): consumes records while the
counter matches and the type is known *and* every ADD/DEL record can be
read into an open transaction; returns the logpoint of the last
END-terminated transaction (if any) and the operations applied, namely
those of transactions whose END was read. -/
def specRedo : List RawRec → Nat → Nat → Option (List ModOp) → Option Nat × List ModOp
  | [] => fun _ _ _ => (none, [])
  | r :: rest => fun pos round cur =>
    if r.num ≠ pos + round * LOG_SIZE then (none, [])
    else
      match r with
      | .wrap _ => specRedo rest 0 (round + 1) cur
      | .mod m ok _ =>
        match cur, ok with
        | some ops, true =>
          specRedo rest (pos + logHeaderSize + getSize m) round (some (ops ++ [m]))
        | _, _ => (none, [])
      | .chkpt _ _ => specRedo rest (pos + logHeaderSize + logNumberSize) round cur
      | .writing _ => specRedo rest (pos + logHeaderSize) round cur
      | .rbegin _ => specRedo rest (pos + logHeaderSize) round (some [])
      | .rend _ =>
        match cur with
        | none => specRedo rest (pos + logHeaderSize) round none
        | some ops =>
          let p := specRedo rest (pos + logHeaderSize) round none
          (some (p.1.getD (pos + round * LOG_SIZE)), ops ++ p.2)
      | .rinit _ => specRedo rest (pos + logHeaderSize) round cur
      | .unknown _ => (none, [])

/-- Spec-side scan following the claim original stopping rule verbatim:
stop only at a counter mismatch or an unknown record type. -/
def specRedoClaim : List RawRec → Nat → Nat → Option (List ModOp) → Option Nat × List ModOp
  | [] => fun _ _ _ => (none, [])
  | r :: rest => fun pos round cur =>
    if r.num ≠ pos + round * LOG_SIZE then (none, [])
    else
      match r with
      | .wrap _ => specRedoClaim rest 0 (round + 1) cur
      | .mod m _ _ =>
        specRedoClaim rest (pos + logHeaderSize + getSize m) round
          (cur.map (fun ops => ops ++ [m]))
      | .chkpt _ _ => specRedoClaim rest (pos + logHeaderSize + logNumberSize) round cur
      | .writing _ => specRedoClaim rest (pos + logHeaderSize) round cur
      | .rbegin _ => specRedoClaim rest (pos + logHeaderSize) round (some [])
      | .rend _ =>
        match cur with
        | none => specRedoClaim rest (pos + logHeaderSize) round none
        | some ops =>
          let p := specRedoClaim rest (pos + logHeaderSize) round none
          (some (p.1.getD (pos + round * LOG_SIZE)), ops ++ p.2)
      | .rinit _ => specRedoClaim rest (pos + logHeaderSize) round cur
      | .unknown _ => (none, [])

/-! ### Source preferences (`src/sourcepref.c`) -/

/-- `INT_MAX`, returned by `_get_priority` when no pattern matches. -/
def INT_MAX : Int := 2147483647

/-- A source-pref object (`s4_sourcepref_St`): the cache table
(`src_id → priority`, a `GHashTable` modelled as an association list) and
the compiled glob patterns (`GPatternSpec`, external GLib code, modelled
as abstract match predicates applied by `g_pattern_match_string`). -/
structure SourcePref where
  table : List (Int × Int)
  specs : List (String → Bool)

/-- The loop of `_get_priority`: index of the first matching pattern,
starting at `i`. -/
def getPriorityGo (src : String) : List (String → Bool) → Nat → Int
  | [], _ => INT_MAX
  | p :: ps, i => if p src then (i : Int) else getPriorityGo src ps (i + 1)

/-- `_get_priority (sp, src)`. -/
def getPriorityRaw (sp : SourcePref) (src : String) : Int :=
  getPriorityGo src sp.specs 0

/-- `s4_sourcepref_get_priority (sp, src)`.  `rev` models `_st_reverse`,
the string-table lookup from a source id to its string (the string table
is external to the provided sources; interning makes it a fixed function
of the id for the lifetime of the database).  Returns the priority and the
updated object (the mutex only guards the cache). -/
def sourceprefGetPriority (rev : Int → String) (sp : SourcePref) (src : Int) :
    Int × SourcePref :=
  match (sp.table.find? (fun e => e.1 == src)).map (fun e => e.2) with
  | some pri => (pri, sp)
  | none =>
    let pri := getPriorityRaw sp (rev src)
    (pri, { sp with table := (src, pri) :: sp.table })

/-- Cache coherence: every memoised entry equals the recomputed priority. -/
def CacheOK (rev : Int → String) (sp : SourcePref) : Prop :=
  ∀ e ∈ sp.table, e.2 = getPriorityRaw sp (rev e.1)

/-- The priority the spec describes: index of the first matching pattern,
`+∞` (`INT_MAX`) when none matches. -/
def specPriority (sp : SourcePref) (src : String) : Int :=
  match sp.specs.findIdx? (fun p => p src) with
  | some i => (i : Int)
  | none => INT_MAX

/-! ### Fetch specifications (`src/lib/fetchspec.c`) -/

/-- One projection (`fetch_data_t`): key (NULL allowed), source preference
(a borrowed reference, modelled by an abstract handle), flags, and the
`const_key` marker. -/
structure FetchData where
  key : Option String
  pref : Option Nat
  flags : Int
  constKey : Bool
deriving DecidableEq

/-- A fetch specification (`s4_fetchspec_St`). -/
structure FetchSpec where
  refCount : Int
  array : List FetchData
deriving DecidableEq

/-- `s4_fetchspec_create`. -/
def fetchspecCreate : FetchSpec := ⟨1, []⟩

/-- `s4_fetchspec_add (spec, key, sourcepref, flags)`: appends a
projection; `strdup` of the key and `s4_sourcepref_ref` are modelled by
value copies. -/
def fetchspecAdd (spec : FetchSpec) (key : Option String) (pref : Option Nat)
    (flags : Int) : FetchSpec :=
  { spec with array := spec.array ++ [⟨key, pref, flags, false⟩] }

/-- `s4_fetchspec_size`. -/
def fetchspecSize (spec : FetchSpec) : Int := spec.array.length

/-- `s4_fetchspec_get_key`: NULL for an out-of-bounds index. -/
def fetchspecGetKey (spec : FetchSpec) (idx : Int) : Option String :=
  if idx < 0 ∨ idx ≥ (spec.array.length : Int) then none
  else (spec.array.getD idx.toNat ⟨none, none, 0, false⟩).key

/-- `s4_fetchspec_get_sourcepref`: NULL for an out-of-bounds index. -/
def fetchspecGetSourcepref (spec : FetchSpec) (idx : Int) : Option Nat :=
  if idx < 0 ∨ idx ≥ (spec.array.length : Int) then none
  else (spec.array.getD idx.toNat ⟨none, none, 0, false⟩).pref

/-- `s4_fetchspec_get_flags`: 0 for an out-of-bounds index. -/
def fetchspecGetFlags (spec : FetchSpec) (idx : Int) : Int :=
  if idx < 0 ∨ idx ≥ (spec.array.length : Int) then 0
  else (spec.array.getD idx.toNat ⟨none, none, 0, false⟩).flags

/-- A fetchspec built by a sequence of `s4_fetchspec_add` calls. -/
def fetchspecOf (items : List (Option String × Option Nat × Int)) : FetchSpec :=
  items.foldl (fun sp it => fetchspecAdd sp it.1 it.2.1 it.2.2) fetchspecCreate

/-! ### Concrete instances used by the claim theorems -/

/-- An ADD operation with empty strings and integer values
(estimated at 34 bytes by `_estimate_size`, 16 + 28 bytes on disk). -/
def smallAdd : ModOp := ⟨true, "", .i 0, "", .i 0, ""⟩

/-- An ADD operation whose `key_b` is 60 bytes long (ignored by
`_estimate_size`, which counts `key_a` twice instead). -/
def bigKeyBAdd : ModOp :=
  ⟨true, "", .i 0, "012345678901234567890123456789012345678901234567890123456789", .i 0, ""⟩

/-- Log contents for the C2 counterexample: an ADD outside any BEGIN/END
pair (all counters correct), then a complete BEGIN/END transaction. -/
def c2File : List RawRec := [.mod smallAdd true 16, .rbegin 60, .rend 76]

/-- A freshly created log state (`_log_create_data` calloc's the
bookkeeping to zero). -/
def freshLog : WSt := ⟨0, 0, 0, 0, 0, []⟩

/-- Writer state for the C4 counterexample: the log is exactly full
(`next_logpoint = last_checkpoint + LOG_SIZE`). -/
def c4St : WSt := ⟨LOG_SIZE, LOG_SIZE, 0, 0, 0, []⟩

/-- An oplist holding only the sync thread's WRITING marker. -/
def c4Ops : List OpItem := [.writing]

/-- Writer state for the C5 counterexample: 120 bytes of budget left
before `last_checkpoint + LOG_SIZE`. -/
def c5St : WSt := ⟨LOG_SIZE - 120, LOG_SIZE - 120, 0, 0, 0, []⟩

/-- Oplist for the C5 counterexample: one ADD with a long `key_b`. -/
def c5Ops : List OpItem := [.mod bigKeyBAdd]

/-- A two-bucket sorted index used by the C8 witness. -/
def c8Idx : Index :=
  [⟨.i 3, [⟨.rel 4, 1⟩, ⟨.rel 2, 1⟩], 0⟩, ⟨.s "x", [⟨.rel 9, 1⟩], 1⟩]

/-- The equality predicate against the value `3` used by the C8 witness. -/
def c8F : SVal → Int := fun v => valComp v (.i 3)

/-- String-table reverse map used by the C9 witness. -/
def rev9 : Int → String := fun _ => "a"

/-- Source-pref object used by the C9 witness: empty cache, two patterns. -/
def sp9 : SourcePref := ⟨[], [fun s => s == "b", fun s => s == "a"]⟩

/-- Items for the C10 witness. -/
def c10Items : List (Option String × Option Nat × Int) :=
  [(some "artist", some 7, 3), (none, none, 5)]

/-! ### Comparator lemmas -/

/-- Helper: `List.getD` at an in-range position is `getElem`. -/
theorem getD_lt {α} (l : List α) (d : α) {k : Nat} (h : k < l.length) :
    l.getD k d = l[k] := by
  simp [List.getD_eq_getElem?_getD, List.getElem?_eq_getElem h]

/-- Helper: `getD` commutes with `map` when the defaults correspond. -/
theorem getD_map {α β} (f : α → β) (l : List α) (d : α) (k : Nat) :
    (l.map f).getD k (f d) = f (l.getD k d) := by
  simp only [List.getD_eq_getElem?_getD, List.getElem?_map]
  cases l[k]? <;> simp

/-- Helper: setting a position to the element already there is the identity. -/
theorem set_getD_self {α} : ∀ (l : List α) (i : Nat) (d : α), i < l.length →
    l.set i (l.getD i d) = l
  | _ :: _, 0, _, _ => by simp
  | a :: l, i + 1, d, h => by
    simpa using set_getD_self l i d (by simpa using h)

/-- The canonical comparator is antisymmetric in sign. -/
theorem valComp_swap (a b : SVal) : valComp a b = - valComp b a := by
  rcases a with m | x <;> rcases b with n | y
  · simp only [valComp]; split_ifs <;> omega
  · norm_num [valComp]
  · norm_num [valComp]
  · simp only [valComp]
    rcases lt_trichotomy x y with h | h | h
    · simp [h, lt_asymm h]
    · subst h
      simp [lt_irrefl]
    · simp [h, lt_asymm h]

/-- The canonical comparator is negative exactly on `<` for strings. -/
theorem valComp_ss_neg {x y : String} : valComp (.s x) (.s y) < 0 ↔ x < y := by
  simp only [valComp]
  split_ifs with h h2
  · exact iff_of_true (by norm_num) h
  · exact iff_of_false (by norm_num) h
  · exact iff_of_false (by norm_num) h

/-- The canonical comparator is transitive on its negative sign. -/
theorem valComp_trans_neg {a b c : SVal} (h1 : valComp a b < 0) (h2 : valComp b c < 0) :
    valComp a c < 0 := by
  rcases a with m | x <;> rcases b with n | y <;> rcases c with k | z
  · simp only [valComp] at h1 h2 ⊢
    split_ifs at h1 h2 ⊢ <;> omega
  · norm_num [valComp]
  · simp only [valComp] at h2; omega
  · norm_num [valComp]
  · simp only [valComp] at h1; omega
  · simp only [valComp] at h1; omega
  · simp only [valComp] at h2; omega
  · rw [valComp_ss_neg] at h1 h2 ⊢
    exact lt_trans h1 h2

/-- Strict sortedness plus order-monotonicity gives positional
sign-monotonicity. -/
theorem signMono_of_sorted {f : SVal → Int} {vs : List SVal}
    (hs : vs.Pairwise (fun a b => valComp a b < 0)) (hf : PredMono f) :
    SignMono f vs := by
  intro i j hij hj
  have hlt : valComp (vs.getD i (.i 0)) (vs.getD j (.i 0)) < 0 := by
    rw [getD_lt _ _ (lt_trans hij hj), getD_lt _ _ hj]
    exact List.pairwise_iff_getElem.mp hs i j (lt_trans hij hj) hj hij
  exact hf _ _ hlt

/-- The comparator against a fixed value is monotone along the order. -/
theorem predMono_valComp (v : SVal) : PredMono (fun bv => valComp bv v) := by
  intro a b hab
  dsimp only
  constructor
  · intro hbv
    exact valComp_trans_neg hab hbv
  · intro hav
    have h1 : valComp v a < 0 := by have := valComp_swap a v; omega
    have h2 : valComp v b < 0 := valComp_trans_neg h1 hab
    have := valComp_swap v b; omega

/-- Correctness of the `_bsearch` loop: with the loop invariants (strictly
negative below `lo`, strictly positive from `hi` on) and a sign-monotone
predicate, the result is either a position where the predicate vanishes or
the boundary position splitting negatives from positives. -/
theorem bsearchGo_correct (vs : List SVal) (f : SVal → Int) (hm : SignMono f vs) :
    ∀ (fuel lo hi : Nat), lo ≤ hi → hi ≤ vs.length → hi - lo ≤ fuel →
    (∀ k, k < lo → f (vs.getD k (.i 0)) < 0) →
    (∀ k, hi ≤ k → k < vs.length → 0 < f (vs.getD k (.i 0))) →
    (bsearchGo vs f fuel lo hi < vs.length
      ∧ f (vs.getD (bsearchGo vs f fuel lo hi) (.i 0)) = 0)
    ∨ (bsearchGo vs f fuel lo hi ≤ vs.length
      ∧ (∀ k, k < bsearchGo vs f fuel lo hi → f (vs.getD k (.i 0)) < 0)
      ∧ (∀ k, bsearchGo vs f fuel lo hi ≤ k → k < vs.length →
          0 < f (vs.getD k (.i 0)))) := by
  intro fuel
  induction fuel with
  | zero =>
    intro lo hi hlh hhl hfuel hlo hhi
    have : lo = hi := by omega
    subst this
    simp only [bsearchGo]
    exact Or.inr ⟨hhl, hlo, hhi⟩
  | succ n ih =>
    intro lo hi hlh hhl hfuel hlo hhi
    by_cases hcmp : lo < hi
    · have hmlt : (hi + lo) / 2 < hi := by omega
      have hmge : lo ≤ (hi + lo) / 2 := by omega
      have hmlen : (hi + lo) / 2 < vs.length := lt_of_lt_of_le hmlt hhl
      simp only [bsearchGo, if_pos hcmp]
      by_cases hz : f (vs.getD ((hi + lo) / 2) (.i 0)) = 0
      · simp only [if_pos hz]
        exact Or.inl ⟨hmlen, hz⟩
      · simp only [if_neg hz]
        by_cases hneg : f (vs.getD ((hi + lo) / 2) (.i 0)) < 0
        · simp only [if_pos hneg]
          refine ih ((hi + lo) / 2 + 1) hi (by omega) hhl (by omega) ?_ hhi
          intro k hk
          rcases Nat.lt_or_ge k ((hi + lo) / 2) with hk2 | hk2
          · exact (hm k ((hi + lo) / 2) hk2 hmlen).1 hneg
          · have : k = (hi + lo) / 2 := by omega
            subst this
            exact hneg
        · simp only [if_neg hneg]
          have hpos : 0 < f (vs.getD ((hi + lo) / 2) (.i 0)) := by omega
          refine ih lo ((hi + lo) / 2) hmge (le_of_lt hmlen) (by omega) hlo ?_
          intro k hk hk2
          rcases Nat.lt_or_ge ((hi + lo) / 2) k with hk3 | hk3
          · exact (hm ((hi + lo) / 2) k hk3 hk2).2 hpos
          · have : k = (hi + lo) / 2 := by omega
            subst this
            exact hpos
    · simp only [bsearchGo, if_neg hcmp]
      have : lo = hi := by omega
      subst this
      exact Or.inr ⟨hhl, hlo, hhi⟩

/-- Correctness of `_bsearch` as called on a whole index. -/
theorem bsearchF_correct (vs : List SVal) (f : SVal → Int) (hm : SignMono f vs) :
    (bsearchF vs f < vs.length ∧ f (vs.getD (bsearchF vs f) (.i 0)) = 0)
    ∨ (bsearchF vs f ≤ vs.length
      ∧ (∀ k, k < bsearchF vs f → f (vs.getD k (.i 0)) < 0)
      ∧ (∀ k, bsearchF vs f ≤ k → k < vs.length → 0 < f (vs.getD k (.i 0)))) := by
  refine bsearchGo_correct vs f hm vs.length 0 vs.length (Nat.zero_le _) le_rfl
    (by omega) ?_ ?_
  · intro k hk
    exact absurd hk (Nat.not_lt_zero k)
  · intro k hk hk2
    omega

/-! ### Sortedness preservation (claim C7 machinery) -/

/-- Inserting an element at a position that respects the relation on both
sides preserves `Pairwise`. -/
theorem pairwise_insertIdx {α : Type} {R : α → α → Prop} :
    ∀ (l : List α) (i : Nat) (x : α), i ≤ l.length → l.Pairwise R →
    (∀ k (hk : k < l.length), k < i → R l[k] x) →
    (∀ k (hk : k < l.length), i ≤ k → R x l[k]) →
    (l.insertIdx i x).Pairwise R
  | l, 0, x, _, hp, _, h2 => by
    rw [List.insertIdx_zero]
    refine List.Pairwise.cons ?_ hp
    intro y hy
    obtain ⟨n, hn, rfl⟩ := List.mem_iff_getElem.mp hy
    exact h2 n hn (Nat.zero_le n)
  | [], i + 1, x, h, _, _, _ => by simp at h
  | a :: l, i + 1, x, h, hp, h1, h2 => by
    rw [List.insertIdx_succ_cons]
    rw [List.pairwise_cons] at hp
    refine List.Pairwise.cons ?_ ?_
    · intro y hy
      rw [List.mem_insertIdx (by simpa using h)] at hy
      rcases hy with rfl | hy
      · exact h1 0 (by simp) (Nat.succ_pos i)
      · exact hp.1 y hy
    · refine pairwise_insertIdx l i x (by simpa using h) hp.2 ?_ ?_
      · intro k hk hki
        have := h1 (k + 1) (by simpa using hk) (by omega)
        simpa using this
      · intro k hk hki
        have := h2 (k + 1) (by simpa using hk) (by omega)
        simpa using this

/-- `map` commutes with `insertIdx`. -/
theorem map_insertIdx {α β : Type} (f : α → β) :
    ∀ (l : List α) (i : Nat) (x : α),
    (l.insertIdx i x).map f = (l.map f).insertIdx i (f x)
  | l, 0, x => by simp [List.insertIdx_zero]
  | [], i + 1, x => by simp [List.insertIdx_succ_nil]
  | a :: l, i + 1, x => by
    simp only [List.insertIdx_succ_cons, List.map_cons]
    rw [map_insertIdx f l i x]

/-- Replacing a bucket by one with the same value leaves the value list,
hence sortedness, unchanged. -/
theorem vals_set (idx : Index) (i : Nat) (b' : IdxBucket)
    (h : i < idx.length) (hv : b'.val = (idx.getD i ⟨.i 0, [], 0⟩).val) :
    (idx.set i b').map (fun b => b.val) = idx.map (fun b => b.val) := by
  rw [List.map_set, hv]
  have hd : (⟨.i 0, [], 0⟩ : IdxBucket).val = SVal.i 0 := rfl
  calc (idx.map (fun b => b.val)).set i (idx.getD i ⟨.i 0, [], 0⟩).val
      = (idx.map (fun b => b.val)).set i
          ((idx.map (fun b => b.val)).getD i (SVal.i 0)) := by
        rw [← hd, getD_map (fun b => b.val) idx ⟨.i 0, [], 0⟩ i]
    _ = idx.map (fun b => b.val) := set_getD_self _ _ _ (by simpa using h)

/-- `_index_delete` called with a relation pointer never modifies the index
and always reports failure: its second guard compares the relation pointer
with the occurrence-array address, which can never be equal. -/
theorem indexDelete_rel_eq (idx : Index) (v : SVal) (n : Nat) :
    indexDelete idx v (.rel n) = (idx, 0) := by
  unfold indexDelete
  dsimp only
  split
  · rfl
  · rename_i b hb
    by_cases h1 : valComp v b.val ≠ 0
    · rw [if_pos h1]
    · rw [if_neg h1, if_pos (Or.inr (by simp))]

/-- Replacing a bucket by one with the same value preserves sortedness. -/
theorem idxSorted_set (idx : Index) (i : Nat) (b' : IdxBucket)
    (h : i < idx.length) (hv : b'.val = (idx.getD i ⟨.i 0, [], 0⟩).val)
    (hs : IdxSorted idx) : IdxSorted (idx.set i b') := by
  unfold IdxSorted at *
  rw [vals_set idx i b' h hv]
  exact hs

/-- `_index_insert` preserves the strict sortedness of the bucket array. -/
theorem indexInsert_sorted (idx : Index) (v : SVal) (d : Addr)
    (hs : IdxSorted idx) : IdxSorted (indexInsert idx v d) := by
  have hm : SignMono (fun bv => valComp bv v) (idx.map (fun b => b.val)) :=
    signMono_of_sorted hs (predMono_valComp v)
  have hget : ∀ k, (idx.map (fun b => b.val)).getD k (SVal.i 0)
      = (idx.getD k ⟨.i 0, [], 0⟩).val := by
    intro k
    have hdv : ((⟨.i 0, [], 0⟩ : IdxBucket)).val = SVal.i 0 := rfl
    rw [← hdv, getD_map]
  unfold indexInsert
  try dsimp only
  by_cases hg : bsearchF (idx.map (fun b => b.val)) (fun bv => valComp bv v) ≥ idx.length
      ∨ valComp v ((idx.getD (bsearchF (idx.map (fun b => b.val)) (fun bv => valComp bv v))
          ⟨.i 0, [], 0⟩).val) ≠ 0
  · rw [if_pos hg]
    rcases bsearchF_correct (idx.map (fun b => b.val)) (fun bv => valComp bv v) hm with
      ⟨hlt, hz⟩ | ⟨hle, hneg, hpos⟩
    · exfalso
      rw [List.length_map] at hlt
      rcases hg with hio | hvne
      · omega
      · try dsimp only at hz
        rw [hget _] at hz
        have := valComp_swap v ((idx.getD (bsearchF (idx.map (fun b => b.val))
          (fun bv => valComp bv v)) ⟨.i 0, [], 0⟩).val)
        omega
    · have hle' : bsearchF (idx.map (fun b => b.val)) (fun bv => valComp bv v)
          ≤ idx.length := by
        rw [List.length_map] at hle
        exact hle
      have hsorted1 : IdxSorted (idx.insertIdx
          (bsearchF (idx.map (fun b => b.val)) (fun bv => valComp bv v))
          ⟨v, [], idx.length⟩) := by
        unfold IdxSorted
        rw [map_insertIdx]
        dsimp only
        refine pairwise_insertIdx _ _ _ (by simpa using hle') hs ?_ ?_
        · intro k hk hki
          have h1 := hneg k hki
          try dsimp only at h1
          rw [getD_lt _ _ hk] at h1
          exact h1
        · intro k hk hki
          have h1 := hpos k hki hk
          try dsimp only at h1
          rw [getD_lt _ _ hk] at h1
          have := valComp_swap v ((idx.map (fun b => b.val))[k])
          omega
      have hlen1 : bsearchF (idx.map (fun b => b.val)) (fun bv => valComp bv v)
          < (idx.insertIdx (bsearchF (idx.map (fun b => b.val))
              (fun bv => valComp bv v)) ⟨v, [], idx.length⟩).length := by
        rw [List.length_insertIdx _ _ hle']
        omega
      split_ifs <;> exact idxSorted_set _ _ _ hlen1 rfl hsorted1
  · rw [if_neg hg]
    have hlen : bsearchF (idx.map (fun b => b.val)) (fun bv => valComp bv v)
        < idx.length := by
      rcases not_or.mp hg with ⟨h1, -⟩
      omega
    split_ifs <;> exact idxSorted_set _ _ _ hlen rfl hs

/-- Claim C7 helper: applying any single index operation with a relation
pointer preserves sortedness. -/
theorem applyOp_sorted (idx : Index) (op : IdxOp) (hs : IdxSorted idx) :
    IdxSorted (applyOp idx op) := by
  cases op with
  | ins v n => exact indexInsert_sorted idx v (.rel n) hs
  | del v n =>
    show IdxSorted (indexDelete idx v (Addr.rel n)).1
    rw [indexDelete_rel_eq]
    exact hs

/-! ### Search correctness (claim C8 machinery) -/

/-- Value-list access rewritten through the bucket list. -/
theorem valsGetD (idx : Index) (k : Nat) :
    (idx.map (fun b => b.val)).getD k (SVal.i 0) = (idx.getD k ⟨.i 0, [], 0⟩).val := by
  have hdv : ((⟨.i 0, [], 0⟩ : IdxBucket)).val = SVal.i 0 := rfl
  rw [← hdv, getD_map]

/-- Under sign-monotonicity the zero set of the predicate is contiguous. -/
theorem signMono_zero {f : SVal → Int} {vs : List SVal} (hm : SignMono f vs)
    {p q t : Nat} (hpt : p ≤ t) (htq : t ≤ q) (hq : q < vs.length)
    (hp0 : f (vs.getD p (.i 0)) = 0) (hq0 : f (vs.getD q (.i 0)) = 0) :
    f (vs.getD t (.i 0)) = 0 := by
  rcases lt_trichotomy (f (vs.getD t (.i 0))) 0 with h | h | h
  · exfalso
    rcases Nat.lt_or_ge p t with hpt2 | hpt2
    · have := (hm p t hpt2 (lt_of_le_of_lt htq hq)).1 h
      omega
    · have : p = t := by omega
      subst this
      omega
  · exact h
  · exfalso
    rcases Nat.lt_or_ge t q with htq2 | htq2
    · have := (hm t q htq2 hq).2 h
      omega
    · have : t = q := by omega
      subst this
      omega

/-- Behaviour of the left scan of `_index_search`: it stops right after the
first non-matching bucket below the start (or at 0). -/
theorem scanLeft_correct (vs : List SVal) (f : SVal → Int) : ∀ m : Nat,
    scanLeft vs f m ≤ m + 1
    ∧ (∀ t, scanLeft vs f m ≤ t → t ≤ m → f (vs.getD t (.i 0)) = 0)
    ∧ (scanLeft vs f m = 0 ∨ f (vs.getD (scanLeft vs f m - 1) (.i 0)) ≠ 0)
    ∧ (f (vs.getD m (.i 0)) = 0 → scanLeft vs f m ≤ m)
  | 0 => by
    unfold scanLeft
    by_cases h : f (vs.getD 0 (.i 0)) ≠ 0
    · rw [if_pos h]
      exact ⟨le_rfl, fun t ht1 ht2 => absurd (le_trans ht1 ht2) (by omega),
        Or.inr h, fun h2 => absurd h2 h⟩
    · rw [if_neg h]
      push_neg at h
      exact ⟨by omega, fun t ht1 ht2 => by
        have : t = 0 := by omega
        subst this; exact h, Or.inl rfl, fun _ => le_rfl⟩
  | m + 1 => by
    have ih := scanLeft_correct vs f m
    unfold scanLeft
    by_cases h : f (vs.getD (m + 1) (.i 0)) ≠ 0
    · rw [if_pos h]
      refine ⟨le_rfl, fun t ht1 ht2 => absurd (le_trans ht1 ht2) (by omega),
        Or.inr ?_, fun h2 => absurd h2 h⟩
      simpa using h
    · rw [if_neg h]
      push_neg at h
      refine ⟨by omega, fun t ht1 ht2 => ?_, ih.2.2.1, fun _ => ih.1⟩
      rcases Nat.lt_or_ge t (m + 1) with ht3 | ht3
      · exact ih.2.1 t ht1 (by omega)
      · have : t = m + 1 := by omega
        subst this
        exact h

/-- Membership in the right-scan collection: exactly the pointers of a
contiguous run of matching buckets starting at `a`. -/
theorem collectRight_mem (idx : Index) (f : SVal → Int) : ∀ (fuel a : Nat) (x : Addr),
    idx.length ≤ fuel + a →
    (x ∈ collectRight idx f fuel a ↔
      ∃ k, a ≤ k ∧ k < idx.length
        ∧ (∀ t, a ≤ t → t ≤ k → f ((idx.getD t ⟨.i 0, [], 0⟩).val) = 0)
        ∧ x ∈ occSet (idx.getD k ⟨.i 0, [], 0⟩))
  | 0, a, x => by
    intro hlen
    unfold collectRight
    simp only [Finset.not_mem_empty, false_iff]
    rintro ⟨k, hk1, hk2, -, -⟩
    omega
  | fuel + 1, a, x => by
    intro hlen
    unfold collectRight
    by_cases hc : a < idx.length ∧ f ((idx.getD a ⟨.i 0, [], 0⟩).val) = 0
    · rw [if_pos hc]
      rw [Finset.mem_union]
      rw [collectRight_mem idx f fuel (a + 1) x (by omega)]
      constructor
      · rintro (hx | ⟨k, hk1, hk2, hk3, hk4⟩)
        · exact ⟨a, le_rfl, hc.1, fun t ht1 ht2 => by
            have : t = a := by omega
            subst this; exact hc.2, hx⟩
        · refine ⟨k, by omega, hk2, fun t ht1 ht2 => ?_, hk4⟩
          rcases Nat.lt_or_ge t (a + 1) with ht3 | ht3
          · have : t = a := by omega
            subst this; exact hc.2
          · exact hk3 t ht3 ht2
      · rintro ⟨k, hk1, hk2, hk3, hk4⟩
        rcases Nat.lt_or_ge k (a + 1) with hk5 | hk5
        · have : k = a := by omega
          subst this
          exact Or.inl hk4
        · exact Or.inr ⟨k, hk5, hk2, fun t ht1 ht2 => hk3 t (by omega) ht2, hk4⟩
    · rw [if_neg hc]
      simp only [Finset.not_mem_empty, false_iff]
      rintro ⟨k, hk1, hk2, hk3, hk4⟩
      rcases not_and_or.mp hc with hc1 | hc2
      · omega
      · exact hc2 (hk3 a le_rfl hk1)

/-- Full correctness of `_index_search` on a sorted index with an
order-monotone predicate: the result is exactly the set of relation
pointers of the buckets whose value matches. -/
theorem indexSearch_correct (idx : Index) (f : SVal → Int)
    (hs : IdxSorted idx) (hf : PredMono f) (x : Addr) :
    x ∈ indexSearch idx f ↔
      ∃ k, k < idx.length ∧ f ((idx.getD k ⟨.i 0, [], 0⟩).val) = 0
        ∧ x ∈ occSet (idx.getD k ⟨.i 0, [], 0⟩) := by
  have hm : SignMono f (idx.map (fun b => b.val)) := signMono_of_sorted hs hf
  unfold indexSearch
  try dsimp only
  rcases bsearchF_correct (idx.map (fun b => b.val)) f hm with
    ⟨hlt, hz⟩ | ⟨hle, hneg, hpos⟩
  · rw [List.length_map] at hlt
    have hcond : ¬ (bsearchF (idx.map (fun b => b.val)) f ≥ idx.length
        ∨ f ((idx.map (fun b => b.val)).getD (bsearchF (idx.map (fun b => b.val)) f)
            (SVal.i 0)) ≠ 0) := by
      rw [not_or]
      exact ⟨by omega, not_not.mpr hz⟩
    rw [if_neg hcond]
    have hsl := scanLeft_correct (idx.map (fun b => b.val)) f
      (bsearchF (idx.map (fun b => b.val)) f)
    have hai : scanLeft (idx.map (fun b => b.val)) f
        (bsearchF (idx.map (fun b => b.val)) f)
        ≤ bsearchF (idx.map (fun b => b.val)) f := hsl.2.2.2 hz
    refine Iff.trans (collectRight_mem idx f idx.length _ x (by omega)) ?_
    set i := bsearchF (idx.map (fun b => b.val)) f with hidef
    set a := scanLeft (idx.map (fun b => b.val)) f i with hadef
    have hza : f ((idx.getD a ⟨.i 0, [], 0⟩).val) = 0 := by
      rw [← valsGetD]
      exact hsl.2.1 a le_rfl hai
    constructor
    · rintro ⟨k, hk1, hk2, hk3, hk4⟩
      exact ⟨k, hk2, hk3 k hk1 le_rfl, hk4⟩
    · rintro ⟨k, hk1, hk2, hk3⟩
      have hka : a ≤ k := by
        by_contra hka
        push_neg at hka
        rcases hsl.2.2.1 with h0 | hne
        · omega
        · apply hne
          refine signMono_zero hm (p := k) (q := i) (by omega) (by omega)
            (by rw [List.length_map]; omega) ?_ hz
          rw [valsGetD]
          exact hk2
      refine ⟨k, hka, hk1, fun t ht1 ht2 => ?_, hk3⟩
      rw [← valsGetD]
      rcases le_or_lt t i with hti | hti
      · refine signMono_zero hm (p := a) (q := i) ht1 hti
          (by rw [List.length_map]; omega) ?_ hz
        rw [valsGetD]
        exact hza
      · refine signMono_zero hm (p := i) (q := k) (by omega) ht2
          (by rw [List.length_map]; omega) hz ?_
        rw [valsGetD]
        exact hk2
  · have hcond : (bsearchF (idx.map (fun b => b.val)) f ≥ idx.length
        ∨ f ((idx.map (fun b => b.val)).getD (bsearchF (idx.map (fun b => b.val)) f)
            (SVal.i 0)) ≠ 0) := by
      rcases Nat.lt_or_ge (bsearchF (idx.map (fun b => b.val)) f) idx.length with h | h
      · refine Or.inr ?_
        have := hpos (bsearchF (idx.map (fun b => b.val)) f) le_rfl
          (by rw [List.length_map]; omega)
        omega
      · exact Or.inl h
    rw [if_pos hcond]
    simp only [Finset.not_mem_empty, false_iff]
    rintro ⟨k, hk1, hk2, -⟩
    rw [← valsGetD] at hk2
    rcases Nat.lt_or_ge k (bsearchF (idx.map (fun b => b.val)) f) with h | h
    · have := hneg k h
      omega
    · have := hpos k h (by rw [List.length_map]; omega)
      omega

/-! ### Log recovery correspondence (claim C2 machinery) -/

/-- Lockstep correspondence between the `_log_redo` scan loop and the
spec-side scan: from any loop state satisfying the loop invariant
`next_logpoint = pos + round * LOG_SIZE`, the final `last_valid_logpoint`
is the logpoint of the last END-terminated transaction of the scanned
prefix (or the incoming one), and exactly the operations of END-terminated
transactions are applied, in order. -/
theorem redoLoop_spec : ∀ (file : List RawRec) (st : RSt),
    st.nextLogpoint = st.pos + st.round * LOG_SIZE →
    (redoLoop st file).lastValid
      = ((specRedo file st.pos st.round st.oplist).1).getD st.lastValid
    ∧ (redoLoop st file).applied
      = st.applied ++ (specRedo file st.pos st.round st.oplist).2
  | [], st, hinv => by
    simp [redoLoop, specRedo]
  | r :: rest, st, hinv => by
    rw [redoLoop, specRedo]
    try dsimp only
    by_cases hnum : r.num ≠ st.pos + st.round * LOG_SIZE
    · rw [if_pos hnum, if_pos hnum]
      simp
    · rw [if_neg hnum, if_neg hnum]
      cases r with
      | wrap n =>
        exact redoLoop_spec rest _ rfl
      | mod m ok n =>
        rcases hop : st.oplist with - | ops <;> cases ok
        all_goals try { simp [hop] }
        · have h := redoLoop_spec rest
            (stepTo { { st with lastLogpoint := st.nextLogpoint } with
              oplist := some (ops ++ [m]) }
              (st.pos + logHeaderSize + getSize m)) rfl
          simpa [hop] using h
      | chkpt p n =>
        exact redoLoop_spec rest _ rfl
      | writing n =>
        exact redoLoop_spec rest _ rfl
      | rbegin n =>
        exact redoLoop_spec rest _ rfl
      | rend n =>
        rcases hop : st.oplist with - | ops
        · have h := redoLoop_spec rest
            (stepTo { st with lastLogpoint := st.nextLogpoint }
              (st.pos + logHeaderSize)) rfl
          simpa [hop] using h
        · simp only [hop]
          split_ifs with h1 h2
          all_goals {
            constructor
            · refine Eq.trans (redoLoop_spec rest _ rfl).1 ?_
              simp [stepTo, hinv]
            · refine Eq.trans (redoLoop_spec rest _ rfl).2 ?_
              simp [stepTo, List.append_assoc]
          }
      | rinit n =>
        exact redoLoop_spec rest _ rfl
      | unknown n =>
        simp

/-! ### Source preference and fetchspec lemmas -/

/-- The `_get_priority` loop computes the index of the first match
(`List.findIdx?` with the same start index). -/
theorem getPriorityGo_findIdx (src : String) : ∀ (ps : List (String → Bool)) (i : Nat),
    getPriorityGo src ps i
      = (match ps.findIdx? (fun p => p src) i with
         | some k => (k : Int)
         | none => INT_MAX)
  | [], i => by simp [getPriorityGo, List.findIdx?]
  | p :: ps, i => by
    rw [getPriorityGo, List.findIdx?_cons]
    by_cases hp : p src
    · simp [hp]
    · simp [hp, getPriorityGo_findIdx src ps (i + 1)]

/-- The array of a built fetchspec is the item list in order. -/
theorem fetchspecOf_array (items : List (Option String × Option Nat × Int)) :
    (fetchspecOf items).array
      = items.map (fun it => ⟨it.1, it.2.1, it.2.2, false⟩) := by
  suffices h : ∀ (l : List (Option String × Option Nat × Int)) (sp : FetchSpec),
      (l.foldl (fun sp it => fetchspecAdd sp it.1 it.2.1 it.2.2) sp).array
        = sp.array ++ l.map (fun it => ⟨it.1, it.2.1, it.2.2, false⟩) by
    simpa [fetchspecOf, fetchspecCreate] using h items fetchspecCreate
  intro l
  induction l with
  | nil => intro sp; simp
  | cons a l ih =>
    intro sp
    rw [List.foldl_cons, ih]
    simp [fetchspecAdd]

/-! ### Claim theorems -/

/-- C1: the claim states that `_index_delete` decrements the matching
occurrence's count, removes it at zero and removes an emptied bucket.
The code contradicts it: its guard compares the relation pointer with the
occurrence-array pointer (`new_data != index->data[i].data`), which never
match, so after inserting `(int 3, rel 7)` into an empty index the delete
of that very pair returns 0 and leaves the occurrence (count 1) and the
bucket in place. -/
theorem c1_delete_noop_eval :
    indexDelete (indexInsert [] (SVal.i 3) (Addr.rel 7)) (SVal.i 3) (Addr.rel 7)
      = (indexInsert [] (SVal.i 3) (Addr.rel 7), 0)
    ∧ indexInsert [] (SVal.i 3) (Addr.rel 7)
      = [⟨SVal.i 3, [⟨Addr.rel 7, 1⟩], 0⟩] := by decide

/-- C2 (counterexample): the claim says the scan stops only at the first
counter mismatch or unknown type, and that `last_logpoint` then points at
the last END-terminated transaction before that stop.  On a log holding an
ADD record outside any BEGIN/END pair followed by a complete transaction
(all counters correct, all types known), the code stops at the stray ADD
(`_read_mod` fails on the NULL oplist), so `last_logpoint` stays at the
initial 0 whereas the claim-side scan yields the END at 76. -/
theorem c2_redo_stop_counterexample :
    (redoRun 0 0 0 c2File).lastLogpoint
      ≠ ((specRedoClaim c2File ((0 + logHeaderSize) % LOG_SIZE)
          ((0 + logHeaderSize) / LOG_SIZE) none).1).getD 0 := by decide

/-- C2 (amended): after `_log_redo` scans any log contents, the scan stops
at the first record whose counter differs from the expected counter
(position + rotation * LOG_SIZE), whose type is unknown, or whose ADD/DEL
payload cannot be read into an open transaction (no BEGIN open or
malformed payload); `last_logpoint` is the logpoint of the last
transaction terminated by an END before the stopping point (unchanged if
none), `next_logpoint` sits one header past it, and exactly the ADD/DEL
operations of END-terminated transactions are applied to the store. -/
theorem c2_redo_amended (lp0 : Nat) (cp0 sy0 : Int) (file : List RawRec) :
    (redoRun lp0 cp0 sy0 file).lastLogpoint
      = ((specRedo file ((lp0 + logHeaderSize) % LOG_SIZE)
          ((lp0 + logHeaderSize) / LOG_SIZE) none).1).getD lp0
    ∧ (redoRun lp0 cp0 sy0 file).applied
      = (specRedo file ((lp0 + logHeaderSize) % LOG_SIZE)
          ((lp0 + logHeaderSize) / LOG_SIZE) none).2
    ∧ (redoRun lp0 cp0 sy0 file).nextLogpoint
      = (redoRun lp0 cp0 sy0 file).lastLogpoint + logHeaderSize := by
  have h := redoLoop_spec file
    { pos := (lp0 + logHeaderSize) % LOG_SIZE
      round := (lp0 + logHeaderSize) / LOG_SIZE
      nextLogpoint := lp0 + logHeaderSize
      lastLogpoint := lp0
      lastValid := lp0
      lastCheckpoint := cp0
      lastSynced := sy0
      newCheckpoint := -1
      newSynced := -1
      oplist := none
      applied := [] }
    (by exact (Nat.mod_add_div' (lp0 + logHeaderSize) LOG_SIZE).symm)
  unfold redoRun
  try dsimp only
  exact ⟨h.1, by simpa using h.2, rfl⟩

/-- C3: the claim states every record's stored counter equals its write
offset plus rotation·LOG_SIZE (position = counter mod LOG_SIZE).  The code
contradicts it at every checkpoint: `_log_checkpoint` declares the payload
as `sizeof (int32_t)` = 4 bytes but `fwrite`s `sizeof (log_number_t)` = 8
bytes, so the END record written right after lands 4 bytes past the
position its counter encodes (from a fresh log: END at offset 40 with
counter 36). -/
theorem c3_checkpoint_record_misplaced :
    ∃ r ∈ (logCheckpoint freshLog).recs, r.offset ≠ r.num % LOG_SIZE := by decide

/-- C4 (counterexample): the claim says a refused `_log_write` returns
failure.  With a full log and an oplist holding the sync thread's WRITING
marker, the write is refused (nothing appended) yet `_log_write` executes
`return writing;`, i.e. returns 1 (success), not 0. -/
theorem c4_refusal_returns_writing :
    ((c4St.nextLogpoint : Int) + (estimateSize c4Ops).1
        > (c4St.lastCheckpoint : Int) + (LOG_SIZE : Int))
    ∧ (logWrite c4St c4Ops).1.recs = c4St.recs
    ∧ (logWrite c4St c4Ops).2 = 1 := by decide

/-- C4 (amended): when the estimated size would push `next_logpoint` past
`last_checkpoint + LOG_SIZE`, `_log_write` appends no records and leaves
`next_logpoint`, `last_logpoint` and `last_checkpoint` unchanged (only
`last_synced` is updated when the oplist holds a WRITING marker), and
returns 0 (failure) exactly when the oplist holds no WRITING marker —
with a WRITING marker it returns 1 even though nothing was appended. -/
theorem c4_log_write_refusal (st : WSt) (ops : List OpItem)
    (hsz : (estimateSize ops).1 ≠ 0)
    (hfull : (st.nextLogpoint : Int) + (estimateSize ops).1
        > (st.lastCheckpoint : Int) + (LOG_SIZE : Int)) :
    logWrite st ops
      = ({ st with lastSynced := if (estimateSize ops).2 then st.lastLogpoint
            else st.lastSynced },
         if (estimateSize ops).2 then 1 else 0) := by
  unfold logWrite
  rcases hes : estimateSize ops with ⟨sz, w⟩
  rw [hes] at hsz hfull
  simp only [hes]
  rw [if_neg hsz]
  cases w
  · simp only [Bool.false_eq_true, if_false]
    rw [if_pos hfull]
  · simp only [if_true]
    rw [if_pos (by simpa using hfull)]

/-- C4 (witness): the amended refusal behaviour at the concrete full-log
state with a WRITING-only oplist. -/
theorem c4_log_write_refusal_witness :
    logWrite c4St c4Ops
      = ({ c4St with lastSynced := if (estimateSize c4Ops).2 then c4St.lastLogpoint
            else c4St.lastSynced },
         if (estimateSize c4Ops).2 then 1 else 0) :=
  c4_log_write_refusal c4St c4Ops (by decide) (by decide)

/-- C5: the claim states `_estimate_size` bounds the bytes appended so a
successful `_log_write` keeps `next_logpoint ≤ last_checkpoint + LOG_SIZE`.
The code contradicts it: the estimate counts `strlen (key_a)` twice and
never `key_b`, and adds `_get_val_len` (−1 for integers) instead of the 4
bytes written.  From a state 120 bytes below the bound, an oplist with one
ADD (60-byte `key_b`, integer values, estimate 116, actual 152 bytes
including the WRAP header) passes the check, succeeds, and leaves
`next_logpoint` 120 bytes past `last_checkpoint + LOG_SIZE`. -/
theorem c5_estimate_not_upper_bound :
    (logWrite c5St c5Ops).2 = 1
    ∧ (logWrite c5St c5Ops).1.nextLogpoint
        > c5St.lastCheckpoint + LOG_SIZE := by decide

/-- C6: the claim states that inserting a relation already present in the
bucket bumps its occurrence count and never duplicates.  The code checks
`j >= index->size` — the number of buckets, not the occurrence count — so
with one bucket holding occurrences at positions ≥ 1, re-inserting
`(int 3, rel 5)` duplicates the occurrence (two entries of count 1)
instead of bumping its count to 2. -/
theorem c6_duplicate_occurrence_eval :
    indexInsert (indexInsert (indexInsert [] (SVal.i 3) (Addr.rel 10))
        (SVal.i 3) (Addr.rel 5)) (SVal.i 3) (Addr.rel 5)
      = [⟨SVal.i 3, [⟨Addr.rel 10, 1⟩, ⟨Addr.rel 5, 1⟩, ⟨Addr.rel 5, 1⟩], 0⟩] := by
  decide

/-- C7: every sequence of `_index_insert` and `_index_delete` operations
(with relation pointers, as the relation store calls them) preserves the
strict sortedness of the bucket array under the canonical comparator. -/
theorem c7_ops_preserve_sorted (ops : List IdxOp) (idx : Index)
    (hs : IdxSorted idx) : IdxSorted (applyOps idx ops) := by
  induction ops generalizing idx with
  | nil => exact hs
  | cons op rest ih => exact ih (applyOp idx op) (applyOp_sorted idx op hs)

/-- C7 (witness): a concrete run of inserts and deletes from the empty
index stays sorted. -/
theorem c7_ops_preserve_sorted_witness :
    IdxSorted (applyOps []
      [.ins (.s "b") 1, .ins (.i 2) 2, .del (.s "b") 1, .ins (.i 7) 3]) :=
  c7_ops_preserve_sorted
    [.ins (.s "b") 1, .ins (.i 2) 2, .del (.s "b") 1, .ins (.i 7) 3] [] (by decide)

/-- C8: on a strictly sorted index with a predicate monotone along the
canonical order, `_index_search` returns exactly the set of relation
pointers of the buckets whose value satisfies `predicate (value) == 0`
(each at most once, being a set), and the empty result when no bucket
satisfies it. -/
theorem c8_search_exact (idx : Index) (f : SVal → Int)
    (hs : IdxSorted idx) (hf : PredMono f) :
    (∀ x : Addr, x ∈ indexSearch idx f ↔ ∃ b ∈ idx, f b.val = 0 ∧ x ∈ occSet b)
    ∧ ((∀ b ∈ idx, f b.val ≠ 0) → indexSearch idx f = ∅) := by
  have hmain := indexSearch_correct idx f hs hf
  have hmem : ∀ x : Addr, x ∈ indexSearch idx f ↔
      ∃ b ∈ idx, f b.val = 0 ∧ x ∈ occSet b := by
    intro x
    rw [hmain x]
    constructor
    · rintro ⟨k, hk1, hk2, hk3⟩
      refine ⟨idx.getD k ⟨.i 0, [], 0⟩, ?_, hk2, hk3⟩
      rw [getD_lt _ _ hk1]
      exact List.getElem_mem hk1
    · rintro ⟨b, hb, h2, h3⟩
      obtain ⟨k, hk, rfl⟩ := List.mem_iff_getElem.mp hb
      exact ⟨k, hk, by rw [getD_lt _ _ hk]; exact h2,
        by rw [getD_lt _ _ hk]; exact h3⟩
  refine ⟨hmem, fun hnone => ?_⟩
  rw [Finset.eq_empty_iff_forall_not_mem]
  intro x hx
  obtain ⟨b, hb, h2, -⟩ := (hmem x).mp hx
  exact hnone b hb h2

/-- C8 (witness): the search on a concrete two-bucket index with the
equality comparator against `int 3`. -/
theorem c8_search_exact_witness :
    (∀ x : Addr, x ∈ indexSearch c8Idx c8F ↔ ∃ b ∈ c8Idx, c8F b.val = 0 ∧ x ∈ occSet b)
    ∧ ((∀ b ∈ c8Idx, c8F b.val ≠ 0) → indexSearch c8Idx c8F = ∅) :=
  c8_search_exact c8Idx c8F (by decide) (predMono_valComp (.i 3))

/-- C9: with a coherent memo cache, `s4_sourcepref_get_priority` returns
the index of the first glob pattern matching the source string (INT_MAX
when none matches), keeps the cache coherent, and a repeated call with the
same source id returns the same priority. -/
theorem c9_sourcepref_priority (rev : Int → String) (sp : SourcePref) (src : Int)
    (hc : CacheOK rev sp) :
    (sourceprefGetPriority rev sp src).1 = specPriority sp (rev src)
    ∧ CacheOK rev (sourceprefGetPriority rev sp src).2
    ∧ (sourceprefGetPriority rev (sourceprefGetPriority rev sp src).2 src).1
        = (sourceprefGetPriority rev sp src).1 := by
  have hraw : ∀ s : String, getPriorityRaw sp s = specPriority sp s := by
    intro s
    rw [getPriorityRaw, getPriorityGo_findIdx, specPriority]
  cases hf : sp.table.find? (fun e => e.1 == src) with
  | some e =>
    have hmem : e ∈ sp.table := List.mem_of_find?_eq_some hf
    have hpe := List.find?_some hf
    have he1 : e.1 = src := by simpa using hpe
    have hval : e.2 = getPriorityRaw sp (rev e.1) := hc e hmem
    have hsp2 : sourceprefGetPriority rev sp src = (e.2, sp) := by
      simp [sourceprefGetPriority, hf]
    rw [hsp2]
    refine ⟨?_, hc, by rw [hsp2]⟩
    rw [hval, he1, hraw]
  | none =>
    have hsp2 : sourceprefGetPriority rev sp src
        = (getPriorityRaw sp (rev src),
           { sp with table := (src, getPriorityRaw sp (rev src)) :: sp.table }) := by
      simp [sourceprefGetPriority, hf]
    rw [hsp2]
    refine ⟨hraw (rev src), ?_, ?_⟩
    · intro e he
      rcases List.mem_cons.mp he with rfl | he2
      · exact rfl
      · exact hc e he2
    · have hfind2 : (((src, getPriorityRaw sp (rev src)) :: sp.table).find?
          (fun e => e.1 == src)) = some (src, getPriorityRaw sp (rev src)) := by
        rw [List.find?_cons_of_pos]
        simp
      simp [sourceprefGetPriority, hfind2]

/-- C9 (witness): a concrete source-pref with two patterns and an empty
cache; the second pattern matches, and the second call agrees. -/
theorem c9_sourcepref_priority_witness :
    ((sourceprefGetPriority rev9 sp9 5).1 = specPriority sp9 (rev9 5)
    ∧ CacheOK rev9 (sourceprefGetPriority rev9 sp9 5).2
    ∧ (sourceprefGetPriority rev9 (sourceprefGetPriority rev9 sp9 5).2 5).1
        = (sourceprefGetPriority rev9 sp9 5).1)
    ∧ (sourceprefGetPriority rev9 sp9 5).1 = 1 :=
  ⟨c9_sourcepref_priority rev9 sp9 5 (by simp [CacheOK, sp9]), by decide⟩

/-- C10: for every fetchspec built by `s4_fetchspec_add` calls, the three
getters return exactly the key, sourcepref and flags passed at an in-range
position, and NULL/NULL/0 for every negative or too-large index. -/
theorem c10_fetchspec_get (items : List (Option String × Option Nat × Int))
    (idx : Int) :
    fetchspecGetKey (fetchspecOf items) idx
      = (if 0 ≤ idx ∧ idx.toNat < items.length
         then (items.getD idx.toNat (none, none, 0)).1 else none)
    ∧ fetchspecGetSourcepref (fetchspecOf items) idx
      = (if 0 ≤ idx ∧ idx.toNat < items.length
         then (items.getD idx.toNat (none, none, 0)).2.1 else none)
    ∧ fetchspecGetFlags (fetchspecOf items) idx
      = (if 0 ≤ idx ∧ idx.toNat < items.length
         then (items.getD idx.toNat (none, none, 0)).2.2 else 0) := by
  have harr := fetchspecOf_array items
  have hlen : (fetchspecOf items).array.length = items.length := by
    rw [harr, List.length_map]
  have hoob : (idx < 0 ∨ idx ≥ ((fetchspecOf items).array.length : Int))
      ↔ ¬ (0 ≤ idx ∧ idx.toNat < items.length) := by
    rw [hlen]
    omega
  have hdflt : (⟨none, none, 0, false⟩ : FetchData)
      = (fun it : Option String × Option Nat × Int =>
          (⟨it.1, it.2.1, it.2.2, false⟩ : FetchData)) (none, none, 0) := rfl
  by_cases h : 0 ≤ idx ∧ idx.toNat < items.length
  · have hoob2 := not_iff_not.mpr hoob
    rw [not_not] at hoob2
    have hin : ¬ (idx < 0 ∨ idx ≥ ((fetchspecOf items).array.length : Int)) :=
      hoob2.mpr h
    rw [fetchspecGetKey, fetchspecGetSourcepref, fetchspecGetFlags,
      if_neg hin, if_neg hin, if_neg hin, if_pos h, if_pos h, if_pos h,
      harr, hdflt, getD_map]
    exact ⟨rfl, rfl, rfl⟩
  · rw [fetchspecGetKey, fetchspecGetSourcepref, fetchspecGetFlags,
      if_pos (hoob.mpr h), if_pos (hoob.mpr h), if_pos (hoob.mpr h),
      if_neg h, if_neg h, if_neg h]
    exact ⟨rfl, rfl, rfl⟩
